import Mathlib

/-!
Verification of the polygon-assembly engine (S2PolygonBuilder) against its
specification.  The repository ships only the test suite
(`src/s2/s2polygonbuilder_test.cc`) together with the angle primitive
(`s1angle.h`); the builder implementation itself is not among the source
files, so the components below are modelled from the specification's
component design (vertex merger, edge set with XOR cancellation, loop
assembler, orchestration), with each modelled definition marked as such in
its doc comment.  Points are abstract values with a rational-valued
distance function, standing in for unit-sphere points with angular
distance (the spec treats the point/angle primitives as external
collaborators).
-/

namespace S2Builder

variable {α : Type} [DecidableEq α]

/-- An edge is an ordered pair (origin, destination) of canonical vertices,
as in the spec's data model. -/
abbrev Edge (α : Type) : Type := α × α

/-- Modelled from the spec: two edges are duplicates when they connect the
same two canonical vertices; undirected edges are normalized so that (a,b)
and (b,a) are treated as identical for cancellation. -/
def samePair (e f : Edge α) : Bool :=
  decide ((e.1 = f.1 ∧ e.2 = f.2) ∨ (e.1 = f.2 ∧ e.2 = f.1))

/-- Modelled from the spec: in XOR mode, adding an edge that connects the
same two canonical vertices as an already-stored edge removes that stored
edge (each cancelling pair is removed together); otherwise the edge is
appended. -/
def addEdgeXor (s : List (Edge α)) (e : Edge α) : List (Edge α) :=
  if s.any (fun f => samePair e f) then s.eraseP (fun f => samePair e f) else s ++ [e]

/-- Modelled from the spec: XOR processing of the accumulated input edges,
one insertion at a time. -/
def xorEdges (l : List (Edge α)) : List (Edge α) := l.foldl addEdgeXor []

/-- The number of edges of `l` connecting the unordered vertex pair `{a, b}`. -/
def countPair (a b : α) (l : List (Edge α)) : Nat :=
  l.countP (fun e => samePair (a, b) e)

theorem samePair_comm (e f : Edge α) : samePair e f = samePair f e := by
  simp only [samePair, decide_eq_decide]
  tauto

theorem samePair_congr {e f : Edge α} (h : samePair e f = true) (g : Edge α) :
    samePair g e = samePair g f := by
  simp only [samePair, decide_eq_true_eq] at h
  simp only [samePair, decide_eq_decide]
  rcases h with ⟨h1, h2⟩ | ⟨h1, h2⟩ <;> rw [h1, h2] <;> tauto

theorem countPair_cons (a b : α) (e : Edge α) (l : List (Edge α)) :
    countPair a b (e :: l) = countPair a b l + (if samePair (a, b) e then 1 else 0) := by
  by_cases h : samePair (a, b) e = true
  · simp [countPair, List.countP_cons, h]
  · simp [countPair, List.countP_cons, h]

theorem countPair_append (a b : α) (l₁ l₂ : List (Edge α)) :
    countPair a b (l₁ ++ l₂) = countPair a b l₁ + countPair a b l₂ := by
  simp [countPair, List.countP_append]

theorem countPair_eraseP (a b : α) (e : Edge α) (l : List (Edge α))
    (h : l.any (fun f => samePair e f) = true) :
    countPair a b (l.eraseP (fun f => samePair e f)) + (if samePair (a, b) e then 1 else 0)
      = countPair a b l := by
  induction l with
  | nil => simp at h
  | cons f t ih =>
    by_cases hf : samePair e f = true
    · rw [List.eraseP_cons_of_pos hf, countPair_cons, samePair_congr hf]
    · rw [List.eraseP_cons_of_neg (by simp [hf]), countPair_cons, countPair_cons]
      have ht : t.any (fun f => samePair e f) = true := by
        simpa [List.any_cons, hf] using h
      have := ih ht
      omega

theorem countPair_notFound (a b : α) (s : List (Edge α)) (e : Edge α)
    (h : ¬ s.any (fun f => samePair e f) = true) (hp : samePair (a, b) e = true) :
    countPair a b s = 0 := by
  rw [countPair, List.countP_eq_zero]
  intro f hf hcon
  have hef : samePair e f = true := by
    have h1 := samePair_congr hcon e
    rw [← h1, samePair_comm]
    exact hp
  simp only [List.any_eq_true] at h
  exact h ⟨f, hf, hef⟩

theorem countPair_le_one_addEdgeXor (a b : α) (s : List (Edge α)) (e : Edge α)
    (hs : ∀ x y : α, countPair x y s ≤ 1) : countPair a b (addEdgeXor s e) ≤ 1 := by
  unfold addEdgeXor
  by_cases h : s.any (fun f => samePair e f) = true
  · rw [if_pos h]
    have h2 := countPair_eraseP a b e s h
    have := hs a b
    omega
  · rw [if_neg h, countPair_append, countPair_cons]
    have hnil : countPair a b ([] : List (Edge α)) = 0 := by simp [countPair]
    rw [hnil]
    by_cases hp : samePair (a, b) e = true
    · have hz := countPair_notFound a b s e h hp
      rw [hz]
      simp [hp]
    · have := hs a b
      simp [hp]
      omega

theorem xorFold_count (a b : α) :
    ∀ (l s : List (Edge α)), (∀ x y : α, countPair x y s ≤ 1) →
      countPair a b (l.foldl addEdgeXor s) = (countPair a b s + countPair a b l) % 2 := by
  intro l
  induction l with
  | nil =>
    intro s hs
    have := hs a b
    have hnil : countPair a b ([] : List (Edge α)) = 0 := by simp [countPair]
    simp only [List.foldl_nil]
    rw [hnil]
    omega
  | cons e t ih =>
    intro s hs
    rw [List.foldl_cons]
    have hnext : ∀ x y : α, countPair x y (addEdgeXor s e) ≤ 1 := fun x y =>
      countPair_le_one_addEdgeXor x y s e hs
    rw [ih (addEdgeXor s e) hnext, countPair_cons]
    have hmod : countPair a b (addEdgeXor s e) % 2
        = (countPair a b s + (if samePair (a, b) e then 1 else 0)) % 2 := by
      unfold addEdgeXor
      by_cases h : s.any (fun f => samePair e f) = true
      · rw [if_pos h]
        have h2 := countPair_eraseP a b e s h
        by_cases hp : samePair (a, b) e = true <;> simp [hp] at h2 ⊢ <;> omega
      · rw [if_neg h, countPair_append, countPair_cons]
        have hnil : countPair a b ([] : List (Edge α)) = 0 := by simp [countPair]
        rw [hnil]
        omega
    omega

theorem countPair_xorEdges (a b : α) (l : List (Edge α)) :
    countPair a b (xorEdges l) = countPair a b l % 2 := by
  have := xorFold_count a b l [] (by intro x y; simp [countPair])
  simpa [xorEdges, countPair] using this

theorem countPair_xorEdges_le_one (a b : α) (l : List (Edge α)) :
    countPair a b (xorEdges l) ≤ 1 := by
  rw [countPair_xorEdges]
  omega

/-! ## Vertex merger

Modelled from the spec (§4.1): a union-find-like iterative clustering that
repeatedly merges two clusters containing points within the merge radius of
each other, until no more merges occur.  Merging is transitive ("merging can
bring previously-distant points within range transitively"; test case 11 of
the suite relies on a chain of merges whose ends are farther apart than the
merge radius), so two clusters merge as soon as any member of one is within
`r` of any member of the other.  The representative of a cluster is its
first-seen point (the spec's "first-seen point" choice). -/

/-- Modelled from the spec: cluster `c₂` is mergeable with cluster `c₁`
when some member of `c₁` lies within distance `r` of some member of `c₂`. -/
def closeClusters (d : α → α → ℤ) (r : ℤ) (c₁ c₂ : List α) : Bool :=
  c₁.any (fun x => c₂.any (fun y => decide (d x y ≤ r)))

/-- Modelled from the spec: perform the first available merge of two
clusters, if any (scanning cluster pairs in first-seen order). -/
def mergeStep (d : α → α → ℤ) (r : ℤ) : List (List α) → Option (List (List α))
  | [] => none
  | c :: cs =>
    match cs.find? (fun c₂ => closeClusters d r c c₂) with
    | some c₂ => some ((c ++ c₂) :: cs.eraseP (fun c₂ => closeClusters d r c c₂))
    | none =>
      match mergeStep d r cs with
      | some cs' => some (c :: cs')
      | none => none

/-- Modelled from the spec: iterate merging to a fixed point; the iteration
cap (`fuel`) guarantees termination, and the initial fuel (the number of
points) is enough to reach the fixed point because every merge strictly
decreases the cluster count. -/
def clustersAux (d : α → α → ℤ) (r : ℤ) : Nat → List (List α) → List (List α)
  | 0, cs => cs
  | fuel + 1, cs =>
    match mergeStep d r cs with
    | some cs' => clustersAux d r fuel cs'
    | none => cs

/-- Modelled from the spec: the vertex clusters of the distinct input
points. -/
def clusters (d : α → α → ℤ) (r : ℤ) (pts : List α) : List (List α) :=
  clustersAux d r pts.dedup.length (pts.dedup.map (fun p => [p]))

/-- Modelled from the spec: the canonical representative of a point is the
first-seen member of its cluster; a point in no cluster is its own
representative. -/
def canonMap (d : α → α → ℤ) (r : ℤ) (pts : List α) (x : α) : α :=
  match (clusters d r pts).find? (fun c => c.contains x) with
  | some c => c.headD x
  | none => x

theorem mergeStep_length {d : α → α → ℤ} {r : ℤ} :
    ∀ {cs cs' : List (List α)}, mergeStep d r cs = some cs' → cs'.length < cs.length := by
  intro cs
  induction cs with
  | nil => intro cs' h; simp [mergeStep] at h
  | cons c cs ih =>
    intro cs' h
    rw [mergeStep] at h
    rcases hf : cs.find? (fun c₂ => closeClusters d r c c₂) with _ | c₂
    · rw [hf] at h
      rcases hm : mergeStep d r cs with _ | cs'' <;> rw [hm] at h
      · exact absurd h (by simp)
      · simp only [Option.some.injEq] at h
        subst h
        simpa using ih hm
    · rw [hf] at h
      simp only [Option.some.injEq] at h
      subst h
      have hmem := List.mem_of_find?_eq_some hf
      have hp := List.find?_some hf
      have := List.length_eraseP_of_mem hmem hp
      simp only [List.length_cons, this]
      have : 1 ≤ cs.length := List.length_pos.mpr (by rintro rfl; simp at hmem)
      omega

theorem mergeStep_none_iff {d : α → α → ℤ} {r : ℤ} :
    ∀ {cs : List (List α)}, mergeStep d r cs = none ↔
      cs.Pairwise (fun c₁ c₂ => closeClusters d r c₁ c₂ = false) := by
  intro cs
  induction cs with
  | nil => simp [mergeStep]
  | cons c cs ih =>
    rw [mergeStep]
    rcases hf : cs.find? (fun c₂ => closeClusters d r c c₂) with _ | c₂
    · rcases hm : mergeStep d r cs with _ | cs''
      · rw [List.find?_eq_none] at hf
        simp only [Bool.not_eq_true] at hf
        simp only [List.pairwise_cons]
        constructor
        · intro _
          exact ⟨hf, ih.mp hm⟩
        · intro _
          trivial
      · constructor
        · intro h; exact absurd h (by simp)
        · intro h
          rw [List.pairwise_cons] at h
          exact absurd (ih.mpr h.2) (by simp [hm])
    · constructor
      · intro h; exact absurd h (by simp)
      · intro h
        rw [List.pairwise_cons] at h
        have := h.1 c₂ (List.mem_of_find?_eq_some hf)
        rw [List.find?_some hf] at this
        exact absurd this (by simp)

theorem clustersAux_of_none {d : α → α → ℤ} {r : ℤ} {cs : List (List α)}
    (h : mergeStep d r cs = none) (fuel : Nat) : clustersAux d r fuel cs = cs := by
  cases fuel <;> simp [clustersAux, h]

theorem clustersAux_fixed {d : α → α → ℤ} {r : ℤ} :
    ∀ (fuel : Nat) (cs : List (List α)), cs.length ≤ fuel →
      mergeStep d r (clustersAux d r fuel cs) = none := by
  intro fuel
  induction fuel with
  | zero =>
    intro cs h
    have : cs = [] := List.length_eq_zero.mp (by omega)
    subst this
    simp [clustersAux, mergeStep]
  | succ fuel ih =>
    intro cs h
    rw [clustersAux]
    rcases hm : mergeStep d r cs with _ | cs'
    · exact hm
    · exact ih cs' (by have := mergeStep_length hm; omega)

theorem find?_eraseP_perm {β : Type} {p : β → Bool} :
    ∀ {cs : List β} {c₂ : β}, cs.find? p = some c₂ →
      (c₂ :: cs.eraseP p).Perm cs := by
  intro cs
  induction cs with
  | nil => intro c₂ h; simp at h
  | cons c cs ih =>
    intro c₂ h
    by_cases hp : p c = true
    · rw [List.find?_cons_of_pos _ hp] at h
      simp only [Option.some.injEq] at h
      subst h
      rw [List.eraseP_cons_of_pos hp]
    · rw [List.find?_cons_of_neg _ hp] at h
      rw [List.eraseP_cons_of_neg hp]
      have h1 : (c₂ :: c :: cs.eraseP p).Perm (c :: c₂ :: cs.eraseP p) :=
        List.Perm.swap c c₂ (cs.eraseP p)
      exact h1.trans ((ih h).cons c)

theorem mergeStep_flatten_perm {d : α → α → ℤ} {r : ℤ} :
    ∀ {cs cs' : List (List α)}, mergeStep d r cs = some cs' →
      cs'.flatten.Perm cs.flatten := by
  intro cs
  induction cs with
  | nil => intro cs' h; simp [mergeStep] at h
  | cons c cs ih =>
    intro cs' h
    rw [mergeStep] at h
    rcases hf : cs.find? (fun c₂ => closeClusters d r c c₂) with _ | c₂
    · rw [hf] at h
      rcases hm : mergeStep d r cs with _ | cs'' <;> rw [hm] at h
      · exact absurd h (by simp)
      · simp only [Option.some.injEq] at h
        subst h
        simpa using (ih hm).append_left c
    · rw [hf] at h
      simp only [Option.some.injEq] at h
      subst h
      have hperm : (c₂ :: cs.eraseP (fun c₂ => closeClusters d r c c₂)).Perm cs :=
        find?_eraseP_perm hf
      have heq : ((c ++ c₂) :: (cs.eraseP (fun c₂ => closeClusters d r c c₂))).flatten
          = c ++ (c₂ :: cs.eraseP (fun c₂ => closeClusters d r c c₂)).flatten := by simp
      rw [heq, List.flatten_cons]
      exact hperm.flatten.append_left c

/-- One chaining step inside a cluster `S`: both points are members and they
lie within distance `r` of each other (in either orientation of the distance
function). -/
def chainStep (d : α → α → ℤ) (r : ℤ) (S : List α) (u v : α) : Prop :=
  u ∈ S ∧ v ∈ S ∧ (d u v ≤ r ∨ d v u ≤ r)

/-- Two points of a cluster are chain-connected when a sequence of members,
each within `r` of the next, links them (the spec's "directly or
transitively through chained merges"). -/
def chainNear (d : α → α → ℤ) (r : ℤ) (S : List α) (x y : α) : Prop :=
  Relation.ReflTransGen (chainStep d r S) x y

/-- The merger's invariant: clusters are nonempty and every member is
chain-connected to the first-seen member (the representative). -/
def Chained (d : α → α → ℤ) (r : ℤ) (cs : List (List α)) : Prop :=
  ∀ c ∈ cs, c ≠ [] ∧ ∀ x ∈ c, chainNear d r c (c.headD x) x

theorem chainStep_symm {d : α → α → ℤ} {r : ℤ} {S : List α} :
    Symmetric (chainStep d r S) := by
  rintro u v ⟨h1, h2, h3⟩
  exact ⟨h2, h1, h3.symm⟩

theorem chainNear_mono {d : α → α → ℤ} {r : ℤ} {S S' : List α} (hS : ∀ a ∈ S, a ∈ S')
    {x y : α} (h : chainNear d r S x y) : chainNear d r S' x y := by
  refine Relation.ReflTransGen.mono ?_ h
  rintro u v ⟨h1, h2, h3⟩
  exact ⟨hS u h1, hS v h2, h3⟩

theorem headD_congr {c : List α} (h : c ≠ []) (a b : α) : c.headD a = c.headD b := by
  cases c with
  | nil => exact absurd rfl h
  | cons x t => rfl

theorem closeClusters_elim {d : α → α → ℤ} {r : ℤ} {c₁ c₂ : List α}
    (h : closeClusters d r c₁ c₂ = true) : ∃ x ∈ c₁, ∃ y ∈ c₂, d x y ≤ r := by
  simpa [closeClusters, List.any_eq_true] using h

theorem merged_chained {d : α → α → ℤ} {r : ℤ} {c c₂ : List α}
    (hc : c ≠ [] ∧ ∀ x ∈ c, chainNear d r c (c.headD x) x)
    (hc₂ : c₂ ≠ [] ∧ ∀ x ∈ c₂, chainNear d r c₂ (c₂.headD x) x)
    (hclose : closeClusters d r c c₂ = true) :
    (c ++ c₂) ≠ [] ∧ ∀ x ∈ c ++ c₂, chainNear d r (c ++ c₂) ((c ++ c₂).headD x) x := by
  obtain ⟨hne, hchain⟩ := hc
  obtain ⟨hne₂, hchain₂⟩ := hc₂
  have hsub : ∀ a ∈ c, a ∈ c ++ c₂ := fun a ha => List.mem_append_left _ ha
  have hsub₂ : ∀ a ∈ c₂, a ∈ c ++ c₂ := fun a ha => List.mem_append_right _ ha
  have happnd : c ++ c₂ ≠ [] := by
    intro hcon
    rw [List.append_eq_nil] at hcon
    exact hne hcon.1
  have hheadD : ∀ a b : α, (c ++ c₂).headD a = c.headD b := by
    intro a b
    cases c with
    | nil => exact absurd rfl hne
    | cons h t => rfl
  refine ⟨happnd, ?_⟩
  intro x hx
  obtain ⟨x₀, hx₀, y₀, hy₀, hd⟩ := closeClusters_elim hclose
  rcases List.mem_append.mp hx with hxc | hxc₂
  · rw [hheadD x x]
    exact chainNear_mono hsub (hchain x hxc)
  · rw [hheadD x x₀]
    have step1 : chainNear d r (c ++ c₂) (c.headD x₀) x₀ :=
      chainNear_mono hsub (hchain x₀ hx₀)
    have step2 : chainNear d r (c ++ c₂) x₀ y₀ :=
      Relation.ReflTransGen.single ⟨hsub x₀ hx₀, hsub₂ y₀ hy₀, Or.inl hd⟩
    have hy₀c : chainNear d r c₂ (c₂.headD y₀) y₀ := hchain₂ y₀ hy₀
    have hxc : chainNear d r c₂ (c₂.headD x) x := hchain₂ x hxc₂
    have hrev : chainNear d r c₂ y₀ (c₂.headD y₀) :=
      Relation.ReflTransGen.symmetric chainStep_symm hy₀c
    have hsame : (c₂ : List α).headD y₀ = c₂.headD x := headD_congr hne₂ _ _
    have step3 : chainNear d r (c ++ c₂) y₀ x := by
      refine chainNear_mono hsub₂ (hrev.trans ?_)
      rw [hsame]
      exact hxc
    exact (step1.trans step2).trans step3

theorem mergeStep_chained {d : α → α → ℤ} {r : ℤ} :
    ∀ {cs cs' : List (List α)}, mergeStep d r cs = some cs' →
      Chained d r cs → Chained d r cs' := by
  intro cs
  induction cs with
  | nil => intro cs' h; simp [mergeStep] at h
  | cons c cs ih =>
    intro cs' h hch
    rw [mergeStep] at h
    rcases hf : cs.find? (fun c₂ => closeClusters d r c c₂) with _ | c₂
    · rw [hf] at h
      rcases hm : mergeStep d r cs with _ | cs'' <;> rw [hm] at h
      · exact absurd h (by simp)
      · simp only [Option.some.injEq] at h
        subst h
        intro c' hc'
        rcases List.mem_cons.mp hc' with rfl | hmem
        · exact hch c' (by simp)
        · exact ih hm (fun cc hcc => hch cc (List.mem_cons_of_mem _ hcc)) c' hmem
    · rw [hf] at h
      simp only [Option.some.injEq] at h
      subst h
      intro c' hc'
      rcases List.mem_cons.mp hc' with rfl | hmem
      · exact merged_chained (hch c (by simp))
          (hch c₂ (List.mem_cons_of_mem _ (List.mem_of_find?_eq_some hf)))
          (List.find?_some hf)
      · exact hch c' (List.mem_cons_of_mem _ ((List.eraseP_sublist _).mem hmem))

theorem clustersAux_chained {d : α → α → ℤ} {r : ℤ} :
    ∀ (fuel : Nat) (cs : List (List α)), Chained d r cs →
      Chained d r (clustersAux d r fuel cs) := by
  intro fuel
  induction fuel with
  | zero => intro cs h; exact h
  | succ fuel ih =>
    intro cs h
    rw [clustersAux]
    rcases hm : mergeStep d r cs with _ | cs'
    · exact h
    · exact ih cs' (mergeStep_chained hm h)

theorem clusters_chained (d : α → α → ℤ) (r : ℤ) (pts : List α) :
    Chained d r (clusters d r pts) := by
  refine clustersAux_chained _ _ ?_
  intro c hc
  simp only [List.mem_map] at hc
  obtain ⟨p, _, rfl⟩ := hc
  refine ⟨by simp, ?_⟩
  intro x hx
  simp only [List.mem_singleton] at hx
  subst hx
  exact Relation.ReflTransGen.refl

theorem clustersAux_flatten_perm {d : α → α → ℤ} {r : ℤ} :
    ∀ (fuel : Nat) (cs : List (List α)),
      (clustersAux d r fuel cs).flatten.Perm cs.flatten := by
  intro fuel
  induction fuel with
  | zero => intro cs; exact List.Perm.refl _
  | succ fuel ih =>
    intro cs
    rw [clustersAux]
    rcases hm : mergeStep d r cs with _ | cs'
    · exact List.Perm.refl _
    · exact (ih cs').trans (mergeStep_flatten_perm hm)

theorem flatten_map_singleton : ∀ (l : List α), (l.map (fun p => [p])).flatten = l := by
  intro l
  induction l with
  | nil => rfl
  | cons p t ih => simp [ih]

theorem clusters_flatten_perm (d : α → α → ℤ) (r : ℤ) (pts : List α) :
    (clusters d r pts).flatten.Perm pts.dedup := by
  have := clustersAux_flatten_perm (d := d) (r := r) pts.dedup.length
    (pts.dedup.map (fun p => [p]))
  rw [flatten_map_singleton] at this
  exact this

theorem canon_singletons (ps : List α) (x : α) :
    (match (ps.map (fun p => [p])).find? (fun c => c.contains x) with
     | some c => c.headD x
     | none => x) = x := by
  induction ps with
  | nil => rfl
  | cons p t ih =>
    simp only [List.map_cons]
    by_cases hx : ([p] : List α).contains x = true
    · rw [List.find?_cons_of_pos (p := fun (c : List α) => c.contains x) _ hx]
      have : p = x := by simpa [List.contains_cons, eq_comm] using hx
      simp [this]
    · rw [List.find?_cons_of_neg (p := fun (c : List α) => c.contains x) _ hx]
      exact ih

theorem canonMap_of_far {d : α → α → ℤ} {r : ℤ} {pts : List α}
    (hfar : pts.dedup.Pairwise (fun x y => ¬ d x y ≤ r)) :
    ∀ x, canonMap d r pts x = x := by
  have hnone : mergeStep d r (pts.dedup.map (fun p => [p])) = none := by
    rw [mergeStep_none_iff]
    refine List.Pairwise.map _ ?_ hfar
    intro a b hab
    simp [closeClusters, hab]
  have hcl : clusters d r pts = pts.dedup.map (fun p => [p]) := by
    rw [clusters, clustersAux_of_none hnone]
  intro x
  rw [canonMap, hcl]
  exact canon_singletons _ x

theorem dedup_pair {p q : α} (hne : p ≠ q) : ([p, q] : List α).dedup = [p, q] := by
  rw [List.dedup_cons_of_not_mem, List.dedup_cons_of_not_mem, List.dedup_nil]
  · simp
  · simp [List.dedup_nil, hne]

theorem clustersAux_zero (d : α → α → ℤ) (r : ℤ) (cs : List (List α)) :
    clustersAux d r 0 cs = cs := rfl

theorem clustersAux_step {d : α → α → ℤ} {r : ℤ} {cs cs' : List (List α)}
    (h : mergeStep d r cs = some cs') (fuel : Nat) :
    clustersAux d r (fuel + 1) cs = clustersAux d r fuel cs' := by
  rw [clustersAux, h]

theorem canonMap_pair_merge (d : α → α → ℤ) (r : ℤ) {p q : α} (hne : p ≠ q)
    (hd : d p q ≤ r) : canonMap d r [p, q] p = p ∧ canonMap d r [p, q] q = p := by
  have hclose : closeClusters d r [p] [q] = true := by
    simp [closeClusters, hd]
  have hstep : mergeStep d r [[p], [q]] = some [[p, q]] := by
    rw [mergeStep, List.find?_cons_of_pos (p := fun c₂ => closeClusters d r [p] c₂) _ hclose]
    simp [List.eraseP_cons_of_pos hclose]
  have hstep2 : mergeStep d r [[p, q]] = none := by
    rw [mergeStep]
    rfl
  have hcl : clusters d r [p, q] = [[p, q]] := by
    rw [clusters, dedup_pair hne]
    simp only [List.map_cons, List.map_nil, List.length_cons, List.length_nil]
    rw [clustersAux_step hstep, clustersAux_of_none hstep2]
  constructor
  · rw [canonMap, hcl]
    rw [List.find?_cons_of_pos (p := fun (c : List α) => c.contains p) _
      (by simp : (fun (c : List α) => c.contains p) [p, q] = true)]
    rfl
  · rw [canonMap, hcl]
    rw [List.find?_cons_of_pos (p := fun (c : List α) => c.contains q) _
      (by simp : (fun (c : List α) => c.contains q) [p, q] = true)]
    rfl

theorem canonMap_pair_far (d : α → α → ℤ) (r : ℤ) {p q : α} (hne : p ≠ q)
    (hd : ¬ d p q ≤ r) : canonMap d r [p, q] p = p ∧ canonMap d r [p, q] q = q := by
  have hfar : ([p, q] : List α).dedup.Pairwise (fun x y => ¬ d x y ≤ r) := by
    rw [dedup_pair hne]
    refine List.pairwise_cons.mpr ⟨?_, ?_⟩
    · intro y hy
      simp only [List.mem_singleton] at hy
      subst hy
      exact hd
    · simp
  exact ⟨canonMap_of_far hfar p, canonMap_of_far hfar q⟩

/-! ## Loop assembler

Modelled from the spec (§4.4): starting at a remaining vertex with an
outgoing edge, the walk repeatedly follows an outgoing edge at the current
vertex (chosen by the deterministic tie-break rule; with abstract points the
fixed ordering that breaks ties is the insertion order of the edges),
removing each consumed edge; the walk stops when it returns to the start
vertex (closing a loop) or hits a vertex with no remaining outgoing edge (a
dead end, the partial chain becoming unused edges).  A closed loop that
fails the caller's validity check (a self-intersecting candidate loop, with
`validate` enabled) cannot become an output loop; per the spec's §8 bowtie
scenario its edges end up unused. -/

/-- Modelled from the spec: one loop-extraction walk, with an explicit
iteration cap (`fuel`) as the spec's termination guard.  `consumed` holds
the edges of the partial chain walked so far (the loop's vertex sequence is
the list of their origins), `remaining` the rest of the edge set.  Returns
the extracted loop (if one closed and passed `valid`), the edges that
became unused, and the surviving edge set.  Callers supply enough fuel that
the cap is never reached (each step consumes one edge). -/
def walkFrom (valid : List α → Bool) (start : α) :
    Nat → α → List (Edge α) → List (Edge α) →
      Option (List α) × List (Edge α) × List (Edge α)
  | 0, _, consumed, remaining => (none, consumed, remaining)
  | fuel + 1, cur, consumed, remaining =>
    if cur = start then
      if valid (consumed.map Prod.fst) then (some (consumed.map Prod.fst), [], remaining)
      else (none, consumed, remaining)
    else
      match remaining.find? (fun e => decide (e.1 = cur)) with
      | none => (none, consumed, remaining)
      | some e =>
        walkFrom valid start fuel e.2 (consumed ++ [e])
          (remaining.eraseP (fun e => decide (e.1 = cur)))

theorem walkFrom_rem_sublist (valid : List α → Bool) (start : α) :
    ∀ (fuel : Nat) (cur : α) (consumed remaining : List (Edge α)),
      ((walkFrom valid start fuel cur consumed remaining).2.2).Sublist remaining := by
  intro fuel
  induction fuel with
  | zero => intro cur consumed remaining; exact List.Sublist.refl _
  | succ fuel ih =>
    intro cur consumed remaining
    rw [walkFrom]
    by_cases hc : cur = start
    · rw [if_pos hc]
      by_cases hv : valid (consumed.map Prod.fst) = true <;> simp [hv]
    · rw [if_neg hc]
      split
      · simp
      · rename_i e hfind
        exact (ih e.2 (consumed ++ [e]) _).trans (List.eraseP_sublist remaining)

/-- Modelled from the spec: extract loops until no vertex has outgoing
edges left, with an iteration cap of one unit per extraction walk (a walk
always consumes at least one edge, so as many units as edges suffice).
Each walk starts at the origin of the first remaining edge; the walk's
result loop (if any) is collected, its unused edges are reported, and
assembly continues on the surviving edge set. -/
def assembleAux (valid : List α → Bool) :
    Nat → List (Edge α) → List (List α) × List (Edge α)
  | 0, E => ([], E)
  | _ + 1, [] => ([], [])
  | fuel + 1, e :: rest =>
    let w := walkFrom valid e.1 (rest.length + 1) e.2 [e] rest
    let next := assembleAux valid fuel w.2.2
    ((match w.1 with
      | some L => L :: next.1
      | none => next.1), w.2.1 ++ next.2)

/-- Modelled from the spec: the loop assembler (AssembleLoops). -/
def assembleLoops (valid : List α → Bool) (E : List (Edge α)) :
    List (List α) × List (Edge α) :=
  assembleAux valid E.length E

/-- The edge list spelled out by a loop's cyclic vertex sequence. -/
def loopEdges (L : List α) : List (Edge α) := L.zip (L.rotate 1)

/-- `chainOk s es c`: the edges `es` form a directed chain from `s` to `c`. -/
def chainOk (s : α) : List (Edge α) → α → Prop
  | [], c => s = c
  | e :: es, c => e.1 = s ∧ chainOk e.2 es c

/-- The edges of a chain of vertices from `a` through `l` to `b`. -/
def chainEdges (a : α) : List α → α → List (Edge α)
  | [], b => [(a, b)]
  | x :: xs, b => (a, x) :: chainEdges x xs b

theorem chainEdges_length (a : α) :
    ∀ (l : List α) (b : α), (chainEdges a l b).length = l.length + 1 := by
  intro l
  induction l generalizing a with
  | nil => intro b; rfl
  | cons x xs ih => intro b; simp [chainEdges, ih x]

theorem chainEdges_map_fst (a : α) :
    ∀ (l : List α) (b : α), (chainEdges a l b).map Prod.fst = a :: l := by
  intro l
  induction l generalizing a with
  | nil => intro b; rfl
  | cons x xs ih => intro b; simp [chainEdges, ih x]

theorem chainOk_zip :
    ∀ (es : List (Edge α)) (a c : α), chainOk a es c →
      (es.map Prod.fst).zip (((es.map Prod.fst).drop 1) ++ [c]) = es := by
  intro es
  induction es with
  | nil => intro a c _; rfl
  | cons e es ih =>
    intro a c h
    obtain ⟨h1, h2⟩ := h
    cases es with
    | nil =>
      have h3 : e.2 = c := h2
      rw [← h3]
      simp
    | cons e' es' =>
      obtain ⟨h3, h4⟩ := h2
      have hih := ih e.2 c ⟨h3, h4⟩
      simp only [List.map_cons, List.drop_succ_cons, List.drop_zero, List.cons_append] at hih ⊢
      rw [List.zip_cons_cons, hih, h3]

theorem rotate_one_cons (a : α) (l : List α) : (a :: l).rotate 1 = l ++ [a] := by
  rw [List.rotate_cons_succ, List.rotate_zero]

theorem chainOk_loopEdges {es : List (Edge α)} {s : α}
    (hne : es ≠ []) (h : chainOk s es s) : loopEdges (es.map Prod.fst) = es := by
  cases es with
  | nil => exact absurd rfl hne
  | cons e es' =>
    obtain ⟨h1, h2⟩ := h
    have hz := chainOk_zip (e :: es') s s ⟨h1, h2⟩
    rw [loopEdges]
    simp only [List.map_cons] at hz ⊢
    rw [h1] at hz ⊢
    rw [rotate_one_cons]
    simpa using hz

/-- The loop edges carried by a walk result. -/
def optEdges : Option (List α) → List (Edge α)
  | some L => loopEdges L
  | none => []

theorem chainOk_append {s c : α} {e : Edge α} :
    ∀ {es : List (Edge α)}, chainOk s es c → e.1 = c → chainOk s (es ++ [e]) e.2 := by
  intro es
  induction es generalizing s with
  | nil =>
    intro h h1
    obtain rfl : s = c := h
    exact ⟨h1, rfl⟩
  | cons f es ih =>
    intro h h1
    obtain ⟨hf, hrest⟩ := h
    exact ⟨hf, ih hrest h1⟩

theorem walkFrom_main (valid : List α → Bool) (start : α) :
    ∀ (fuel : Nat) (cur : α) (consumed remaining : List (Edge α)),
      consumed ≠ [] → chainOk start consumed cur →
      (∀ e ∈ consumed.tail, e.1 ≠ start) →
      (optEdges (walkFrom valid start fuel cur consumed remaining).1
          ++ (walkFrom valid start fuel cur consumed remaining).2.1
          ++ (walkFrom valid start fuel cur consumed remaining).2.2).Perm
        (consumed ++ remaining)
      ∧ ∀ L, (walkFrom valid start fuel cur consumed remaining).1 = some L →
          valid L = true ∧ ∃ tl, L = start :: tl ∧ ∀ x ∈ tl, x ≠ start := by
  intro fuel
  induction fuel with
  | zero =>
    intro cur consumed remaining _ _ _
    constructor
    · simp [walkFrom, optEdges]
    · intro L hL
      simp [walkFrom] at hL
  | succ fuel ih =>
    intro cur consumed remaining hne hchain htail
    rw [walkFrom]
    by_cases hc : cur = start
    · subst hc
      rw [if_pos rfl]
      by_cases hv : valid (consumed.map Prod.fst) = true
      · rw [if_pos hv]
        constructor
        · simp only [optEdges, chainOk_loopEdges hne hchain]
          simp
        · intro L hL
          simp only [Option.some.injEq] at hL
          subst hL
          refine ⟨hv, ?_⟩
          cases consumed with
          | nil => exact absurd rfl hne
          | cons e₀ tl₀ =>
            obtain ⟨h₀, _⟩ := hchain
            refine ⟨tl₀.map Prod.fst, by simp [h₀], ?_⟩
            intro x hx
            obtain ⟨f, hf, rfl⟩ := List.mem_map.mp hx
            exact htail f hf
      · rw [if_neg hv]
        constructor
        · simp [optEdges]
        · intro L hL
          simp at hL
    · rw [if_neg hc]
      split
      · constructor
        · simp [optEdges]
        · intro L hL
          simp at hL
      · rename_i e hfind
        have hm := List.mem_of_find?_eq_some hfind
        have hp := List.find?_some hfind
        have he1 : e.1 = cur := by simpa using hp
        have hne' : consumed ++ [e] ≠ [] := by simp
        have hchain' : chainOk start (consumed ++ [e]) e.2 :=
          chainOk_append hchain (he1.trans rfl)
        have htail' : ∀ f ∈ (consumed ++ [e]).tail, f.1 ≠ start := by
          cases consumed with
          | nil => exact absurd rfl hne
          | cons c₀ t₀ =>
            intro f hf
            simp only [List.cons_append, List.tail_cons] at hf
            rcases List.mem_append.mp hf with hf | hf
            · exact htail f hf
            · simp only [List.mem_singleton] at hf
              subst hf
              rw [he1]
              exact hc
        obtain ⟨hperm, hwf⟩ := ih e.2 (consumed ++ [e]) _ hne' hchain' htail'
        constructor
        · refine hperm.trans ?_
          rw [List.append_assoc]
          refine List.Perm.append_left consumed ?_
          rw [List.singleton_append]
          exact find?_eraseP_perm hfind
        · exact hwf

theorem perm_middle_swap {β : Type} (B C D : List β) :
    (B ++ (C ++ D)).Perm (C ++ (B ++ D)) := by
  have h1 : B ++ (C ++ D) = (B ++ C) ++ D := (List.append_assoc B C D).symm
  have h2 : (C ++ B) ++ D = C ++ (B ++ D) := List.append_assoc C B D
  rw [h1, ← h2]
  exact List.Perm.append_right D List.perm_append_comm

/-- A loop produced by a walk: nonempty, its start vertex does not recur in
its interior, and it passed the validity check. -/
def WellFormedLoop (valid : List α → Bool) (L : List α) : Prop :=
  valid L = true ∧ ∃ s tl, L = s :: tl ∧ ∀ x ∈ tl, x ≠ s

theorem assembleAux_spec (valid : List α → Bool) :
    ∀ (fuel : Nat) (E : List (Edge α)),
      (((assembleAux valid fuel E).1.flatMap loopEdges)
        ++ (assembleAux valid fuel E).2).Perm E
      ∧ ∀ L ∈ (assembleAux valid fuel E).1, WellFormedLoop valid L := by
  intro fuel
  induction fuel with
  | zero =>
    intro E
    constructor
    · simp [assembleAux]
    · intro L hL
      simp [assembleAux] at hL
  | succ fuel ih =>
    intro E
    cases E with
    | nil =>
      constructor
      · simp [assembleAux]
      · intro L hL
        simp [assembleAux] at hL
    | cons e rest =>
      have hchain0 : chainOk e.1 [e] e.2 := ⟨rfl, rfl⟩
      obtain ⟨hperm, hwf⟩ := walkFrom_main valid e.1 (rest.length + 1) e.2 [e] rest
        (by simp) hchain0 (by simp)
      obtain ⟨ihperm, ihwf⟩ := ih (walkFrom valid e.1 (rest.length + 1) e.2 [e] rest).2.2
      rw [assembleAux]
      constructor
      · rcases hlp : (walkFrom valid e.1 (rest.length + 1) e.2 [e] rest).1 with _ | L
        · simp only [hlp]
          have hopt : optEdges (walkFrom valid e.1 (rest.length + 1) e.2 [e] rest).1 = [] := by
            rw [hlp]; rfl
          rw [hopt] at hperm
          simp only [List.nil_append] at hperm
          refine List.Perm.trans ?_ hperm
          refine List.Perm.trans (perm_middle_swap _ _ _).symm ?_
          exact List.Perm.append_left _ ihperm
        · simp only [hlp]
          have hopt : optEdges (walkFrom valid e.1 (rest.length + 1) e.2 [e] rest).1
              = loopEdges L := by
            rw [hlp]; rfl
          rw [hopt] at hperm
          simp only [List.flatMap_cons]
          refine List.Perm.trans ?_ hperm
          rw [List.append_assoc, List.append_assoc]
          refine List.Perm.append_left (loopEdges L) ?_
          refine List.Perm.trans (perm_middle_swap _ _ _).symm ?_
          exact List.Perm.append_left _ ihperm
      · intro L hL
        rcases hlp : (walkFrom valid e.1 (rest.length + 1) e.2 [e] rest).1 with _ | L₀
        · simp only [hlp] at hL
          exact ihwf L hL
        · simp only [hlp] at hL
          rcases List.mem_cons.mp hL with rfl | hmem
          · obtain ⟨hv, tl, htl, hint⟩ := hwf L hlp
            exact ⟨hv, e.1, tl, htl, hint⟩
          · exact ihwf L hmem

theorem assembleLoops_spec (valid : List α → Bool) (E : List (Edge α)) :
    (((assembleLoops valid E).1.flatMap loopEdges) ++ (assembleLoops valid E).2).Perm E
    ∧ ∀ L ∈ (assembleLoops valid E).1, WellFormedLoop valid L :=
  assembleAux_spec valid E.length E

theorem zip_chainEdges :
    ∀ (l : List α) (a c : α), (a :: l).zip (l ++ [c]) = chainEdges a l c := by
  intro l
  induction l with
  | nil => intro a c; rfl
  | cons x xs ih =>
    intro a c
    rw [chainEdges, List.cons_append, List.zip_cons_cons, ih x c]

theorem loopEdges_cons (a : α) (l : List α) : loopEdges (a :: l) = chainEdges a l a := by
  rw [loopEdges, rotate_one_cons, zip_chainEdges]

theorem walkFrom_retrace (valid : List α → Bool) (start : α) :
    ∀ (tl' : List α) (fuel : Nat) (cur : α) (consumed rest : List (Edge α)),
      tl'.length + 2 ≤ fuel →
      cur ≠ start → (∀ x ∈ tl', x ≠ start) →
      walkFrom valid start fuel cur consumed (chainEdges cur tl' start ++ rest)
        = if valid (consumed.map Prod.fst ++ cur :: tl')
          then (some (consumed.map Prod.fst ++ cur :: tl'), [], rest)
          else (none, consumed ++ chainEdges cur tl' start, rest) := by
  intro tl'
  induction tl' with
  | nil =>
    intro fuel cur consumed rest hfuel hcur _
    obtain ⟨f, rfl⟩ : ∃ f, fuel = f + 1 + 1 := ⟨fuel - 2, by omega⟩
    rw [walkFrom, if_neg hcur]
    have hpos : (fun (f : Edge α) => decide (f.1 = cur)) (cur, start) = true := by simp
    rw [chainEdges, List.cons_append,
      List.find?_cons_of_pos (p := fun (f : Edge α) => decide (f.1 = cur)) _ hpos,
      List.eraseP_cons_of_pos (p := fun (f : Edge α) => decide (f.1 = cur)) hpos]
    change walkFrom valid start (f + 1) start (consumed ++ [(cur, start)]) rest = _
    rw [walkFrom, if_pos rfl]
    simp [chainEdges]
  | cons x xs ih =>
    intro fuel cur consumed rest hfuel hcur hint
    have hx : x ≠ start := hint x (by simp)
    have hxs : ∀ y ∈ xs, y ≠ start := fun y hy => hint y (by simp [hy])
    obtain ⟨f, rfl⟩ : ∃ f, fuel = f + 1 := ⟨fuel - 1, by omega⟩
    rw [walkFrom, if_neg hcur]
    have hpos : (fun (f : Edge α) => decide (f.1 = cur)) (cur, x) = true := by simp
    rw [chainEdges, List.cons_append,
      List.find?_cons_of_pos (p := fun (f : Edge α) => decide (f.1 = cur)) _ hpos,
      List.eraseP_cons_of_pos (p := fun (f : Edge α) => decide (f.1 = cur)) hpos]
    change walkFrom valid start f x (consumed ++ [(cur, x)])
      (chainEdges x xs start ++ rest) = _
    rw [ih f x (consumed ++ [(cur, x)]) rest (by simp at hfuel ⊢; omega) hx hxs]
    simp only [List.map_append, List.map_cons, List.map_nil, List.append_assoc,
      List.cons_append, List.nil_append, chainEdges]

theorem assembleAux_retrace (valid : List α → Bool) :
    ∀ (Ls : List (List α)) (fuel : Nat), (Ls.flatMap loopEdges).length ≤ fuel →
      (∀ L ∈ Ls, WellFormedLoop valid L) →
      assembleAux valid fuel (Ls.flatMap loopEdges) = (Ls, []) := by
  intro Ls
  induction Ls with
  | nil =>
    intro fuel _ _
    cases fuel <;> simp [assembleAux]
  | cons L Ls ih =>
    intro fuel hfuel hwf
    obtain ⟨hv, s, tl, rfl, hint⟩ := hwf L (by simp)
    have hlen : ((s :: tl) :: Ls).flatMap loopEdges
        = chainEdges s tl s ++ Ls.flatMap loopEdges := by
      rw [List.flatMap_cons, loopEdges_cons]
    rw [hlen] at hfuel ⊢
    have hlen2 : (chainEdges s tl s).length = tl.length + 1 := chainEdges_length s tl s
    obtain ⟨f, rfl⟩ : ∃ f, fuel = f + 1 := by
      refine ⟨fuel - 1, ?_⟩
      rw [List.length_append, hlen2] at hfuel
      omega
    have hfr : (Ls.flatMap loopEdges).length ≤ f := by
      rw [List.length_append, hlen2] at hfuel
      omega
    have ihr := ih f hfr (fun L hL => hwf L (List.mem_cons_of_mem _ hL))
    cases tl with
    | nil =>
      rw [chainEdges, List.cons_append, List.nil_append, assembleAux]
      have hw : walkFrom valid s ((Ls.flatMap loopEdges).length + 1) s [(s, s)]
          (Ls.flatMap loopEdges) = (some [s], [], Ls.flatMap loopEdges) := by
        rw [walkFrom, if_pos rfl]
        simp only [List.map_cons, List.map_nil]
        rw [if_pos hv]
      rw [hw]
      simp [ihr]
    | cons x xs =>
      have hx : x ≠ s := hint x (by simp)
      have hxs : ∀ y ∈ xs, y ≠ s := fun y hy => hint y (by simp [hy])
      rw [chainEdges, List.cons_append, assembleAux]
      have hw : walkFrom valid s ((chainEdges x xs s ++ Ls.flatMap loopEdges).length + 1)
          x [(s, x)] (chainEdges x xs s ++ Ls.flatMap loopEdges)
          = (some (s :: x :: xs), [], Ls.flatMap loopEdges) := by
        rw [walkFrom_retrace valid s xs _ x [(s, x)] (Ls.flatMap loopEdges)
          (by rw [List.length_append, chainEdges_length]; omega) hx hxs]
        simp only [List.map_cons, List.map_nil, List.singleton_append]
        rw [if_pos hv]
      rw [hw]
      simp [ihr]

theorem assembleLoops_retrace (valid : List α → Bool) :
    ∀ (Ls : List (List α)), (∀ L ∈ Ls, WellFormedLoop valid L) →
      assembleLoops valid (Ls.flatMap loopEdges) = (Ls, []) := by
  intro Ls hwf
  exact assembleAux_retrace valid Ls _ le_rfl hwf

/-! ## Orchestration (the builder's single assembly pass) -/

/-- Modelled from the spec: non-XOR mode, a duplicate of an already-stored
edge is silently collapsed to one. -/
def addEdgeDedup (s : List (Edge α)) (e : Edge α) : List (Edge α) :=
  if e ∈ s then s else s ++ [e]

/-- Modelled from the spec: duplicate collapsing of the accumulated edges in
non-XOR mode. -/
def dedupEdges (l : List (Edge α)) : List (Edge α) := l.foldl addEdgeDedup []

/-- Modelled from the spec: the edge-set processing selected by the
`xor_edges` option. -/
def processEdges (xor : Bool) (l : List (Edge α)) : List (Edge α) :=
  if xor then xorEdges l else dedupEdges l

/-- All endpoints of the accumulated edges, in insertion order. -/
def edgeVertices (l : List (Edge α)) : List α := l.flatMap (fun e => [e.1, e.2])

/-- Modelled from the spec: the single assembly pass of the polygon builder:
merge vertices into canonical representatives, rewrite the accumulated edges
through the canonical mapping, process duplicates (XOR cancellation or
collapsing), then extract loops and unused edges. -/
def buildLoops (d : α → α → ℤ) (r : ℤ) (xor : Bool) (valid : List α → Bool)
    (input : List (Edge α)) : List (List α) × List (Edge α) :=
  let canon := canonMap d r (edgeVertices input)
  assembleLoops valid (processEdges xor (input.map (fun e => (canon e.1, canon e.2))))

theorem samePair_refl (e : Edge α) : samePair e e = true := by
  simp [samePair]

theorem xorFold_id :
    ∀ (l s : List (Edge α)), (s ++ l).Pairwise (fun e f => samePair e f = false) →
      l.foldl addEdgeXor s = s ++ l := by
  intro l
  induction l with
  | nil => intro s _; simp
  | cons e t ih =>
    intro s hp
    have hnone : s.any (fun f => samePair e f) = false := by
      rw [List.any_eq_false]
      intro f hf
      have := (List.pairwise_append.mp hp).2.2 f hf e (by simp)
      rw [samePair_comm]
      simp [this]
    rw [List.foldl_cons, addEdgeXor, if_neg (by simp [hnone])]
    have hp' : ((s ++ [e]) ++ t).Pairwise (fun e f => samePair e f = false) := by
      rw [List.append_assoc, List.singleton_append]
      exact hp
    rw [ih (s ++ [e]) hp', List.append_assoc, List.singleton_append]

theorem xorEdges_id {l : List (Edge α)}
    (h : l.Pairwise (fun e f => samePair e f = false)) : xorEdges l = l := by
  have := xorFold_id l [] (by simpa using h)
  simpa [xorEdges] using this

theorem dedupFold_id :
    ∀ (l s : List (Edge α)), (s ++ l).Nodup → l.foldl addEdgeDedup s = s ++ l := by
  intro l
  induction l with
  | nil => intro s _; simp
  | cons e t ih =>
    intro s hp
    have hnotmem : e ∉ s := by
      intro hmem
      rw [List.nodup_append] at hp
      exact hp.2.2 hmem (by simp)
    rw [List.foldl_cons, addEdgeDedup, if_neg hnotmem]
    have hp' : ((s ++ [e]) ++ t).Nodup := by
      rw [List.append_assoc, List.singleton_append]
      exact hp
    rw [ih (s ++ [e]) hp', List.append_assoc, List.singleton_append]

theorem dedupEdges_id {l : List (Edge α)} (h : l.Nodup) : dedupEdges l = l := by
  have := dedupFold_id l [] (by simpa using h)
  simpa [dedupEdges] using this

theorem pairwise_of_countPair_le_one :
    ∀ {E : List (Edge α)}, (∀ a b, countPair a b E ≤ 1) →
      E.Pairwise (fun e f => samePair e f = false) := by
  intro E
  induction E with
  | nil => intro _; exact List.Pairwise.nil
  | cons e t ih =>
    intro h
    refine List.Pairwise.cons ?_ (ih ?_)
    · intro f hf
      have h1 := h e.1 e.2
      rw [countPair_cons] at h1
      have hee : samePair (e.1, e.2) e = true := by
        have : (e.1, e.2) = e := rfl
        rw [this]
        exact samePair_refl e
      rw [if_pos hee] at h1
      have hz : countPair e.1 e.2 t = 0 := by omega
      rw [countPair, List.countP_eq_zero] at hz
      have := hz f hf
      simpa using this
    · intro a b
      have := h a b
      rw [countPair_cons] at this
      omega

theorem xorEdges_pairwise (l : List (Edge α)) :
    (xorEdges l).Pairwise (fun e f => samePair e f = false) :=
  pairwise_of_countPair_le_one (fun a b => countPair_xorEdges_le_one a b l)

theorem dedupFold_nodup :
    ∀ (l s : List (Edge α)), s.Nodup → (l.foldl addEdgeDedup s).Nodup := by
  intro l
  induction l with
  | nil => intro s h; exact h
  | cons e t ih =>
    intro s h
    rw [List.foldl_cons, addEdgeDedup]
    by_cases hmem : e ∈ s
    · rw [if_pos hmem]
      exact ih s h
    · rw [if_neg hmem]
      refine ih _ ?_
      rw [List.nodup_append]
      refine ⟨h, by simp, ?_⟩
      intro a ha hae
      simp only [List.mem_singleton] at hae
      subst hae
      exact hmem ha

theorem dedupEdges_nodup (l : List (Edge α)) : (dedupEdges l).Nodup :=
  dedupFold_nodup l [] (by simp)

theorem xorFold_mem :
    ∀ (l s : List (Edge α)) (e : Edge α), e ∈ l.foldl addEdgeXor s → e ∈ s ∨ e ∈ l := by
  intro l
  induction l with
  | nil => intro s e h; exact Or.inl (by simpa using h)
  | cons f t ih =>
    intro s e h
    rw [List.foldl_cons] at h
    rcases ih _ e h with hs | ht
    · rw [addEdgeXor] at hs
      split at hs
      · exact Or.inl ((List.eraseP_sublist s).mem hs)
      · rcases List.mem_append.mp hs with hs | hs
        · exact Or.inl hs
        · simp only [List.mem_singleton] at hs
          exact Or.inr (by simp [hs])
    · exact Or.inr (List.mem_cons_of_mem _ ht)

theorem dedupFold_mem :
    ∀ (l s : List (Edge α)) (e : Edge α), e ∈ l.foldl addEdgeDedup s → e ∈ s ∨ e ∈ l := by
  intro l
  induction l with
  | nil => intro s e h; exact Or.inl (by simpa using h)
  | cons f t ih =>
    intro s e h
    rw [List.foldl_cons] at h
    rcases ih _ e h with hs | ht
    · rw [addEdgeDedup] at hs
      split at hs
      · exact Or.inl hs
      · rcases List.mem_append.mp hs with hs | hs
        · exact Or.inl hs
        · simp only [List.mem_singleton] at hs
          exact Or.inr (by simp [hs])
    · exact Or.inr (List.mem_cons_of_mem _ ht)

theorem processEdges_mem {xor : Bool} {l : List (Edge α)} {e : Edge α}
    (h : e ∈ processEdges xor l) : e ∈ l := by
  rw [processEdges] at h
  split at h
  · rcases xorFold_mem l [] e h with hs | hl
    · simp at hs
    · exact hl
  · rcases dedupFold_mem l [] e h with hs | hl
    · simp at hs
    · exact hl

/-! ## Idempotence support: the fixed point of the merger -/

theorem clusters_fixed (d : α → α → ℤ) (r : ℤ) (pts : List α) :
    mergeStep d r (clusters d r pts) = none := by
  rw [clusters]
  exact clustersAux_fixed _ _ (by simp)

theorem clusters_far {d : α → α → ℤ} (hsymm : ∀ x y, d x y = d y x) {r : ℤ}
    {pts : List α} :
    ∀ c₁ ∈ clusters d r pts, ∀ c₂ ∈ clusters d r pts, c₁ ≠ c₂ →
      ∀ x ∈ c₁, ∀ y ∈ c₂, ¬ d x y ≤ r := by
  have hpw := mergeStep_none_iff.mp (clusters_fixed d r pts)
  have hpw2 : (clusters d r pts).Pairwise
      (fun c₁ c₂ => ∀ x ∈ c₁, ∀ y ∈ c₂, ¬ d x y ≤ r ∧ ¬ d y x ≤ r) := by
    refine hpw.imp ?_
    intro c₁ c₂ h
    have hfalse : ∀ x ∈ c₁, ∀ y ∈ c₂, ¬ d x y ≤ r := by
      intro x hx y hy hle
      have hcl : closeClusters d r c₁ c₂ = true := by
        rw [closeClusters, List.any_eq_true]
        exact ⟨x, hx, by rw [List.any_eq_true]; exact ⟨y, hy, by simpa using hle⟩⟩
      rw [h] at hcl
      exact absurd hcl (by simp)
    intro x hx y hy
    refine ⟨hfalse x hx y hy, ?_⟩
    intro hle
    rw [hsymm] at hle
    exact hfalse x hx y hy hle
  have hsym2 : Symmetric
      (fun (c₁ c₂ : List α) => ∀ x ∈ c₁, ∀ y ∈ c₂, ¬ d x y ≤ r ∧ ¬ d y x ≤ r) := by
    intro c₁ c₂ h x hx y hy
    exact ⟨(h y hy x hx).2, (h y hy x hx).1⟩
  intro c₁ h₁ c₂ h₂ hne x hx y hy
  exact ((hpw2.forall hsym2) h₁ h₂ hne x hx y hy).1

/-- `y` is the canonical representative (first-seen member) of one of the
final clusters. -/
def IsRep (d : α → α → ℤ) (r : ℤ) (pts : List α) (y : α) : Prop :=
  ∃ c ∈ clusters d r pts, c ≠ [] ∧ c.headD y = y

theorem canonMap_isRep {d : α → α → ℤ} {r : ℤ} {pts : List α} {x : α}
    (hx : x ∈ pts) : IsRep d r pts (canonMap d r pts x) := by
  have hperm := clusters_flatten_perm d r pts
  have hxf : x ∈ (clusters d r pts).flatten :=
    hperm.mem_iff.mpr (List.mem_dedup.mpr hx)
  obtain ⟨c, hc, hxc⟩ := List.mem_flatten.mp hxf
  have hsome : ((clusters d r pts).find? (fun c => c.contains x)).isSome := by
    rw [List.find?_isSome]
    exact ⟨c, hc, by simpa using hxc⟩
  obtain ⟨c', hfind⟩ := Option.isSome_iff_exists.mp hsome
  have hc' : c' ∈ clusters d r pts := List.mem_of_find?_eq_some hfind
  have hne : c' ≠ [] := (clusters_chained d r pts c' hc').1
  refine ⟨c', hc', hne, ?_⟩
  rw [canonMap, hfind]
  cases c' with
  | nil => exact absurd rfl hne
  | cons a t => rfl

theorem reps_far {d : α → α → ℤ} (hsymm : ∀ x y, d x y = d y x) {r : ℤ}
    {pts : List α} {y₁ y₂ : α} (h₁ : IsRep d r pts y₁) (h₂ : IsRep d r pts y₂)
    (hne : y₁ ≠ y₂) : ¬ d y₁ y₂ ≤ r := by
  obtain ⟨c₁, hc₁, hne₁, hh₁⟩ := h₁
  obtain ⟨c₂, hc₂, hne₂, hh₂⟩ := h₂
  have hm₁ : y₁ ∈ c₁ := by
    cases c₁ with
    | nil => exact absurd rfl hne₁
    | cons a t => rw [← hh₁]; simp
  have hm₂ : y₂ ∈ c₂ := by
    cases c₂ with
    | nil => exact absurd rfl hne₂
    | cons a t => rw [← hh₂]; simp
  have hcne : c₁ ≠ c₂ := by
    intro hcon
    subst hcon
    cases c₁ with
    | nil => exact absurd rfl hne₁
    | cons a t =>
      apply hne
      rw [← hh₁, ← hh₂]
      rfl
  exact clusters_far hsymm c₁ hc₁ c₂ hc₂ hcne y₁ hm₁ y₂ hm₂

theorem canonMap_reps_id {d : α → α → ℤ} (hsymm : ∀ x y, d x y = d y x) {r : ℤ}
    {pts₀ pts₁ : List α} (hreps : ∀ x ∈ pts₁, IsRep d r pts₀ x) :
    ∀ x, canonMap d r pts₁ x = x := by
  apply canonMap_of_far
  refine List.Nodup.pairwise_of_forall_ne (List.nodup_dedup _) ?_
  intro a ha b hb hne
  exact reps_far hsymm (hreps a (List.mem_dedup.mp ha)) (hreps b (List.mem_dedup.mp hb)) hne

theorem loopEdges_map_fst (L : List α) : (loopEdges L).map Prod.fst = L := by
  rw [loopEdges]
  exact List.map_fst_zip _ _ (by rw [List.length_rotate])

theorem samePair_symm_false {e f : Edge α} (h : samePair e f = false) :
    samePair f e = false := by
  rw [samePair_comm]
  exact h

theorem buildLoops_idem (d : α → α → ℤ) (hsymm : ∀ x y : α, d x y = d y x) (r : ℤ)
    (xor : Bool) (valid : List α → Bool) (input : List (Edge α)) :
    buildLoops d r xor valid
        ((buildLoops d r xor valid input).1.flatMap loopEdges)
      = ((buildLoops d r xor valid input).1, []) := by
  have hbuild : buildLoops d r xor valid input
      = assembleLoops valid (processEdges xor (input.map
          (fun e => (canonMap d r (edgeVertices input) e.1,
                     canonMap d r (edgeVertices input) e.2)))) := rfl
  obtain ⟨hperm, hwf⟩ := assembleLoops_spec valid
    (processEdges xor (input.map
      (fun e => (canonMap d r (edgeVertices input) e.1,
                 canonMap d r (edgeVertices input) e.2))))
  rw [← hbuild] at hperm hwf
  have hvrep : ∀ x ∈ edgeVertices ((buildLoops d r xor valid input).1.flatMap loopEdges),
      IsRep d r (edgeVertices input) x := by
    intro x hx
    obtain ⟨e, heF, hxe⟩ := List.mem_flatMap.mp hx
    have heE' : e ∈ processEdges xor (input.map
        (fun e => (canonMap d r (edgeVertices input) e.1,
                   canonMap d r (edgeVertices input) e.2))) :=
      hperm.mem_iff.mp (List.mem_append_left _ heF)
    have heE := processEdges_mem heE'
    obtain ⟨e₀, he₀, rfl⟩ := List.mem_map.mp heE
    have h₀1 : e₀.1 ∈ edgeVertices input := List.mem_flatMap.mpr ⟨e₀, he₀, by simp⟩
    have h₀2 : e₀.2 ∈ edgeVertices input := List.mem_flatMap.mpr ⟨e₀, he₀, by simp⟩
    simp only [List.mem_cons, List.not_mem_nil, or_false] at hxe
    rcases hxe with rfl | rfl
    · exact canonMap_isRep h₀1
    · exact canonMap_isRep h₀2
  have hcanon2 : ∀ x, canonMap d r
      (edgeVertices ((buildLoops d r xor valid input).1.flatMap loopEdges)) x = x :=
    canonMap_reps_id hsymm hvrep
  have hmapF : ((buildLoops d r xor valid input).1.flatMap loopEdges).map
      (fun e => (canonMap d r
          (edgeVertices ((buildLoops d r xor valid input).1.flatMap loopEdges)) e.1,
        canonMap d r
          (edgeVertices ((buildLoops d r xor valid input).1.flatMap loopEdges)) e.2))
      = (buildLoops d r xor valid input).1.flatMap loopEdges := by
    rw [List.map_congr_left (g := id) (by intro e _; simp [hcanon2])]
    exact List.map_id _
  have hFsub : ((buildLoops d r xor valid input).1.flatMap loopEdges).Sublist
      (((buildLoops d r xor valid input).1.flatMap loopEdges)
        ++ (buildLoops d r xor valid input).2) :=
    List.sublist_append_left _ _
  have hproc : processEdges xor ((buildLoops d r xor valid input).1.flatMap loopEdges)
      = (buildLoops d r xor valid input).1.flatMap loopEdges := by
    cases xor with
    | true =>
      rw [processEdges, if_pos rfl]
      refine xorEdges_id ?_
      refine List.Pairwise.sublist hFsub ?_
      refine (List.Perm.pairwise_iff (fun h => samePair_symm_false h) hperm).mpr ?_
      rw [processEdges, if_pos rfl]
      exact xorEdges_pairwise _
    | false =>
      rw [processEdges, if_neg (by simp)]
      refine dedupEdges_id ?_
      refine List.Nodup.sublist hFsub ?_
      refine (List.Perm.nodup_iff hperm).mpr ?_
      rw [processEdges, if_neg (by simp)]
      exact dedupEdges_nodup _
  show assembleLoops valid (processEdges xor
      (((buildLoops d r xor valid input).1.flatMap loopEdges).map _)) = _
  rw [hmapF, hproc]
  exact assembleLoops_retrace valid _ hwf

/-! ## Zero merge radius -/

theorem buildLoops_zero_radius (d : α → α → ℤ)
    (hmet : ∀ x y : α, d x y ≤ 0 ↔ x = y) (Ls : List (List α))
    (hLs : ∀ L ∈ Ls, L ≠ [] ∧ L.Nodup)
    (hpairs : (Ls.flatMap loopEdges).Pairwise (fun e f => samePair e f = false)) :
    (∀ x, canonMap d 0 (edgeVertices (Ls.flatMap loopEdges)) x = x) ∧
      buildLoops d 0 true (fun _ => true) (Ls.flatMap loopEdges) = (Ls, []) := by
  have hfar : ∀ pts : List α, pts.dedup.Pairwise (fun x y => ¬ d x y ≤ 0) := by
    intro pts
    refine List.Nodup.pairwise_of_forall_ne (List.nodup_dedup _) ?_
    intro a _ b _ hne hle
    exact hne ((hmet a b).mp hle)
  have hid : ∀ x, canonMap d 0 (edgeVertices (Ls.flatMap loopEdges)) x = x :=
    canonMap_of_far (hfar _)
  refine ⟨hid, ?_⟩
  show assembleLoops _ (processEdges true ((Ls.flatMap loopEdges).map _)) = _
  rw [List.map_congr_left (g := id) (by intro e _; simp [hid]), List.map_id]
  rw [processEdges, if_pos rfl, xorEdges_id hpairs]
  refine assembleLoops_retrace _ Ls ?_
  intro L hL
  obtain ⟨hne, hnd⟩ := hLs L hL
  refine ⟨rfl, ?_⟩
  cases L with
  | nil => exact absurd rfl hne
  | cons s tl =>
    refine ⟨s, tl, rfl, ?_⟩
    intro x hx hcon
    subst hcon
    exact (List.nodup_cons.mp hnd).1 hx

/-! ## Concrete instantiation

The spec treats the unit-sphere point type and angular distance as external
collaborators.  For the concrete test scenarios the points are exact
latitude/longitude coordinates; they are represented here in fixed-point
integer units (thousandths of a degree, matching the E5/E6/E7 fixed-point
representations of `s1angle.h`), with the L1 distance on coordinates as the
stand-in metric — faithful at scenario scale, where the only question is
whether distinct vertices fall within a near-zero merge radius. -/

/-- Absolute value on the fixed-point units. -/
def absZ (x : ℤ) : ℤ := if x < 0 then -x else x

/-- A point at scenario scale: (latitude, longitude) in thousandths of a
degree. -/
abbrev Pt : Type := ℤ × ℤ

/-- Modelled from the spec: the angular-distance collaborator, as the L1
coordinate distance at scenario scale. -/
def distL1 (p q : Pt) : ℤ := absZ (p.1 - q.1) + absZ (p.2 - q.2)

/-- One-dimensional stand-in distance, for the merger-only claims. -/
def distZ (x y : ℤ) : ℤ := absZ (x - y)

theorem absZ_nonneg (x : ℤ) : 0 ≤ absZ x := by
  rw [absZ]
  split <;> omega

theorem absZ_eq_zero {x : ℤ} : absZ x = 0 ↔ x = 0 := by
  rw [absZ]
  split <;> omega

theorem distL1_metric (p q : Pt) : distL1 p q ≤ 0 ↔ p = q := by
  rw [distL1]
  constructor
  · intro h
    have h1 := absZ_nonneg (p.1 - q.1)
    have h2 := absZ_nonneg (p.2 - q.2)
    have e1 : absZ (p.1 - q.1) = 0 := by omega
    have e2 : absZ (p.2 - q.2) = 0 := by omega
    rw [absZ_eq_zero] at e1 e2
    have : p.1 = q.1 := by omega
    have : p.2 = q.2 := by omega
    exact Prod.ext (by omega) (by omega)
  · intro h
    subst h
    simp [absZ]

theorem distZ_symm (x y : ℤ) : distZ x y = distZ y x := by
  rw [distZ, distZ, absZ, absZ]
  split <;> split <;> omega

theorem distL1_symm (p q : Pt) : distL1 p q = distL1 q p := by
  rw [distL1, distL1, absZ, absZ, absZ, absZ]
  split <;> split <;> split <;> split <;> omega

/-! ## The claims -/

/-- C1: In XOR mode, for every unordered pair of canonical vertices, if the
accumulated input contains k edges connecting that pair then after XOR
processing exactly k mod 2 edges between that pair survive (odd
multiplicities leave exactly one edge, even multiplicities leave none); in
particular, after XOR processing no unordered vertex pair has more than one
surviving edge. -/
theorem xor_parity_invariant (α : Type) [DecidableEq α] (l : List (Edge α)) (a b : α) :
    countPair a b (xorEdges l) = countPair a b l % 2
    ∧ countPair a b (xorEdges l) ≤ 1 := by
  refine ⟨countPair_xorEdges a b l, ?_⟩
  rw [countPair_xorEdges a b l]
  omega

/-- Test case 1 of the suite: one triangle loop plus two open chains (six
extra edges), at scenario scale. -/
def oneLoopInput : List (Edge Pt) :=
  [((0, 0), (0, 10000)), ((0, 10000), (10000, 5000)), ((10000, 5000), (0, 0)),
   ((0, 0), (5000, 5000)),
   ((10000, 5000), (20000, 7000)), ((20000, 7000), (30000, 10000)),
   ((30000, 10000), (40000, 15000)), ((40000, 15000), (50000, 3000)),
   ((50000, 3000), (60000, -20000))]

/-- C5: Every edge that is not incorporated into an assembled closed loop is
returned to the caller in the unused-edge list; the assembler never drops or
silently ignores a residual edge (the loop edges of the output together with
the unused edges are a permutation of the processed edge set), and the
one-loop-plus-open-chains input reports exactly its 6 non-loop edges as
unused. -/
theorem unused_edges_conservation (α : Type) [DecidableEq α] :
    (∀ (valid : List α → Bool) (E : List (Edge α)),
      (((assembleLoops valid E).1.flatMap loopEdges) ++ (assembleLoops valid E).2).Perm E)
    ∧ buildLoops distL1 0 true (fun _ => true) oneLoopInput
        = ([[(0, 0), (0, 10000), (10000, 5000)]],
           [((0, 0), (5000, 5000)),
            ((10000, 5000), (20000, 7000)), ((20000, 7000), (30000, 10000)),
            ((30000, 10000), (40000, 15000)), ((40000, 15000), (50000, 3000)),
            ((50000, 3000), (60000, -20000))]) := by
  constructor
  · intro valid E
    exact (assembleLoops_spec valid E).1
  · decide

/-- The three-loop union scenario (test case 3 of the suite): two outer
shells and one shared hole, sharing boundary edges exactly, at scenario
scale. -/
def threeLoopInput : List (Edge Pt) :=
  [((0, 0), (0, 10000)), ((0, 10000), (5000, 10000)), ((5000, 10000), (10000, 10000)),
   ((10000, 10000), (10000, 5000)), ((10000, 5000), (10000, 0)), ((10000, 0), (0, 0)),
   ((0, 10000), (0, 15000)), ((0, 15000), (5000, 15000)), ((5000, 15000), (5000, 10000)),
   ((5000, 10000), (0, 10000)),
   ((10000, 10000), (5000, 10000)), ((5000, 10000), (5000, 5000)),
   ((5000, 5000), (10000, 5000)), ((10000, 5000), (10000, 10000))]

/-- C3: With XOR enabled and near-zero merge radius, the three-loop input
consisting of the two outer shells '0:0, 0:10, 5:10, 10:10, 10:5, 10:0' and
'0:10, 0:15, 5:15, 5:10' plus the shared hole '10:10, 5:10, 5:5, 10:5'
assembles into exactly one loop, the combined outer loop
'0:0, 0:10, 0:15, 5:15, 5:10, 5:5, 10:5, 10:0', with zero unused edges
(coordinates in thousandths of a degree; merge radius one unit). -/
theorem three_loop_union_scenario :
    buildLoops distL1 1 true (fun _ => true) threeLoopInput
      = ([[(0, 0), (0, 10000), (0, 15000), (5000, 15000), (5000, 10000),
           (5000, 5000), (10000, 5000), (10000, 0)]], []) := by
  decide

/-! ## Loop validity at scenario scale

Modelled from the spec: with `validate` enabled the assembler checks that a
candidate loop does not self-intersect (`S2Loop::IsValid`, an external
geometric primitive); per the spec's bowtie scenario, edges of a candidate
loop that cannot close into a simple loop end up unused.  At scenario scale
the check is the exact proper-crossing test on the lat/lng coordinates. -/

/-- The planar orientation determinant of three points. -/
def orient2D (p q r : Pt) : ℤ :=
  (q.1 - p.1) * (r.2 - p.2) - (q.2 - p.2) * (r.1 - p.1)

/-- Two segments cross properly when each straddles the other's line. -/
def properCross (a b c d : Pt) : Bool :=
  decide (orient2D a b c * orient2D a b d < 0 ∧ orient2D c d a * orient2D c d b < 0)

/-- Modelled from the spec: the self-intersection check of a candidate loop,
as the proper-crossing test over all pairs of non-adjacent loop edges. -/
def loopSimpleCheck (L : List Pt) : Bool :=
  let es := loopEdges L
  let m := es.length
  (List.range m).all fun i => (List.range m).all fun j =>
    if i + 1 < j ∧ ¬ (i = 0 ∧ j = m - 1) then
      let e₁ := es.getD i ((0, 0), (0, 0))
      let e₂ := es.getD j ((0, 0), (0, 0))
      ! properCross e₁.1 e₁.2 e₂.1 e₂.2
    else
      true

/-- Test case 9 of the suite: a closed triangle plus the two open chains of
a self-intersecting bowtie, at scenario scale. -/
def bowtieInput : List (Edge Pt) :=
  [((0, 0), (0, 10000)), ((0, 10000), (5000, 5000)), ((5000, 5000), (0, 0)),
   ((0, 20000), (0, 30000)), ((0, 30000), (10000, 20000)),
   ((10000, 20000), (10000, 30000)), ((10000, 30000), (0, 20000))]

/-- C6: With edge splitting disabled, an input consisting of the closed
triangle '0:0, 0:10, 5:5' plus the two open chains forming a
self-intersecting bowtie ('0:20, 0:30, 10:20' and '10:20, 10:30, 0:20')
assembles exactly the triangle loop, and all four bowtie edges are reported
as unused (the bowtie closes combinatorially but fails the
self-intersection check, so its edges cannot form a simple loop). -/
theorem bowtie_triangle_scenario :
    buildLoops distL1 0 true loopSimpleCheck bowtieInput
      = ([[(0, 0), (0, 10000), (5000, 5000)]],
         [((0, 20000), (0, 30000)), ((0, 30000), (10000, 20000)),
          ((10000, 20000), (10000, 30000)), ((10000, 30000), (0, 20000))]) := by
  decide

/-- C2 counterexample: an input consisting of the same triangle twice has
exact duplicate edges removed via XOR — every edge cancels — so assembly
with vertex merge radius zero yields no loops at all instead of reproducing
the two input loops. -/
theorem xor_duplicate_loops_not_reproduced :
    (buildLoops distL1 0 true (fun _ => true)
        (([[(0, 0), (0, 10000), (5000, 5000)],
           [(0, 0), (0, 10000), (5000, 5000)]] : List (List Pt)).flatMap loopEdges)).1
      ≠ [[(0, 0), (0, 10000), (5000, 5000)], [(0, 0), (0, 10000), (5000, 5000)]] := by
  decide

/-- C2 (amended): For every input consisting of simple loops no two of whose
edges connect the same unordered vertex pair (so that XOR processing removes
nothing), assembly with vertex merge radius zero performs no vertex merging
(the vertex mapping is the identity) and the assembled loops reproduce the
input loops exactly, vertex for vertex, with zero unused edges. -/
theorem zero_merge_radius_reproduces_loops (α : Type) [DecidableEq α]
    (d : α → α → ℤ) (hmet : ∀ x y : α, d x y ≤ 0 ↔ x = y) (Ls : List (List α))
    (hLs : ∀ L ∈ Ls, L ≠ [] ∧ L.Nodup)
    (hpairs : (Ls.flatMap loopEdges).Pairwise (fun e f => samePair e f = false)) :
    (∀ x, canonMap d 0 (edgeVertices (Ls.flatMap loopEdges)) x = x)
    ∧ buildLoops d 0 true (fun _ => true) (Ls.flatMap loopEdges) = (Ls, []) :=
  buildLoops_zero_radius d hmet Ls hLs hpairs

/-- C2 witness: the amended statement applied to a concrete pair of
disjoint triangles. -/
theorem zero_merge_radius_reproduces_loops_witness :
    (∀ x, canonMap distL1 0
        (edgeVertices (([[(0, 0), (0, 10000), (5000, 5000)],
          [(20000, 0), (20000, 10000), (25000, 5000)]] : List (List Pt)).flatMap loopEdges)) x = x)
    ∧ buildLoops distL1 0 true (fun _ => true)
        (([[(0, 0), (0, 10000), (5000, 5000)],
           [(20000, 0), (20000, 10000), (25000, 5000)]] : List (List Pt)).flatMap loopEdges)
      = ([[(0, 0), (0, 10000), (5000, 5000)],
          [(20000, 0), (20000, 10000), (25000, 5000)]], []) :=
  zero_merge_radius_reproduces_loops Pt distL1 distL1_metric
    [[(0, 0), (0, 10000), (5000, 5000)], [(20000, 0), (20000, 10000), (25000, 5000)]]
    (by decide) (by decide)

/-- C4 counterexample: with merge radius 10, the collinear points 0, 10, 20
chain-merge into a single cluster whose representative (first-seen point) is
0, yet the member 20 lies at distance 20 > 10 from that representative: the
direct-radius version of the cluster invariant fails. -/
theorem direct_radius_invariant_fails :
    clusters distZ 10 [0, 10, 20] = [[0, 10, 20]]
    ∧ ¬ distZ (([0, 10, 20] : List ℤ).headD 0) 20 ≤ 10 := by
  decide

/-- C4 (amended): every member of a cluster produced by the vertex merger
lies within `vertex_merge_radius` of the cluster's representative directly
or transitively through chained merges: it is linked to the representative
by a chain of cluster members in which consecutive points are within the
merge radius of each other. -/
theorem cluster_chain_connected (α : Type) [DecidableEq α] (d : α → α → ℤ)
    (r : ℤ) (pts : List α) :
    ∀ c ∈ clusters d r pts, c ≠ [] ∧ ∀ x ∈ c, chainNear d r c (c.headD x) x :=
  clusters_chained d r pts

/-- C4 witness: the chained-merge invariant at the counterexample's
cluster. -/
theorem cluster_chain_connected_witness :
    ([0, 10, 20] : List ℤ) ∈ clusters distZ 10 [0, 10, 20]
    ∧ (([0, 10, 20] : List ℤ) ≠ []
        ∧ ∀ x ∈ ([0, 10, 20] : List ℤ), chainNear distZ 10 [0, 10, 20] (([0, 10, 20] : List ℤ).headD x) x) :=
  ⟨by decide, cluster_chain_connected ℤ distZ 10 [0, 10, 20] [0, 10, 20] (by decide)⟩

/-- C7: Vertex merging has an inclusive boundary: two points whose distance
is exactly equal to `vertex_merge_radius` are merged (both map to the
first-seen representative), while two points whose distance is strictly
greater than `vertex_merge_radius` are not merged (the canonical mapping is
the identity on them). -/
theorem merge_radius_inclusive_boundary (α : Type) [DecidableEq α]
    (d : α → α → ℤ) (r : ℤ) (p q : α) (hne : p ≠ q) :
    (d p q = r → canonMap d r [p, q] p = p ∧ canonMap d r [p, q] q = p)
    ∧ (r < d p q → canonMap d r [p, q] p = p ∧ canonMap d r [p, q] q = q) := by
  constructor
  · intro h
    exact canonMap_pair_merge d r hne (le_of_eq h)
  · intro h
    exact canonMap_pair_far d r hne (not_le.mpr h)

/-- C7 witness: two points exactly 5 units apart merge at radius 5, and do
not merge at radius 4. -/
theorem merge_radius_inclusive_boundary_witness :
    (canonMap distZ 5 [0, 5] 0 = 0 ∧ canonMap distZ 5 [0, 5] 5 = 0)
    ∧ (canonMap distZ 4 [0, 5] 0 = 0 ∧ canonMap distZ 4 [0, 5] 5 = 5) :=
  ⟨(merge_radius_inclusive_boundary ℤ distZ 5 0 5 (by decide)).1 (by decide),
   (merge_radius_inclusive_boundary ℤ distZ 4 0 5 (by decide)).2 (by decide)⟩

/-- C8: Assembly is idempotent on its own output: re-running assembly on
the exact output edges of a prior assembly, with the same tolerances and
configuration (distance function, merge radius, XOR mode and validity
check), yields the same loop set — and no unused edges. -/
theorem assembly_idempotent (α : Type) [DecidableEq α] (d : α → α → ℤ)
    (hsymm : ∀ x y : α, d x y = d y x) (r : ℤ) (xor : Bool)
    (valid : List α → Bool) (input : List (Edge α)) :
    buildLoops d r xor valid ((buildLoops d r xor valid input).1.flatMap loopEdges)
      = ((buildLoops d r xor valid input).1, []) :=
  buildLoops_idem d hsymm r xor valid input

/-- C8 witness: idempotence at the three-loop union scenario. -/
theorem assembly_idempotent_witness :
    buildLoops distL1 1 true (fun _ => true)
        ((buildLoops distL1 1 true (fun _ => true) threeLoopInput).1.flatMap loopEdges)
      = ((buildLoops distL1 1 true (fun _ => true) threeLoopInput).1, []) :=
  assembly_idempotent Pt distL1 distL1_symm 1 true (fun _ => true) threeLoopInput

/-! ## The acknowledged robustness bug (C9)

The suite's `BuilderProducesValidPolygons` test feeds a valid,
non-degenerate 17-vertex polygon to `AssemblePolygon` with a 10-metre
robustness radius and documents that the output is an *invalid* polygon
containing the same 4-vertex loop twice ("This should be EXPECT_TRUE, but
there is a bug").  The snapping path itself is external floating-point
geometry; what can be checked here is that the documented output violates
the polygon validity model. -/

/-- Modelled from the spec: a Polygon is an owning collection of *disjoint
simple* loops (§3, §4.4), so a well-formed polygon neither repeats a loop
nor contains a self-intersecting loop. -/
def polygonLoopsOk (Ls : List (List Pt)) : Bool :=
  decide Ls.Nodup && Ls.all loopSimpleCheck

/-- The loop the source's test documents twice in the buggy output
(coordinates in E7 fixed-point, ten-millionths of a degree, as in
`s1angle.h`). -/
def buggyOutputLoop : List Pt :=
  [(322984558, 723414530), (322985238, 723423743),
   (322987176, 723427807), (322990498, 723430073)]

/-- C9: the output polygon documented by the source's own test for the
robustness-radius snapping path — the same 4-vertex loop twice — violates
the polygon validity model (while each copy of the loop alone is a simple
loop): valid input polygons do not always produce valid output polygons. -/
theorem duplicate_loop_polygon_invalid :
    polygonLoopsOk [buggyOutputLoop, buggyOutputLoop] = false
    ∧ loopSimpleCheck buggyOutputLoop = true := by
  decide

/-! ## Snap level (C10)

Modelled from the spec ("robustness radius / snap level: alternate way to
specify merge tolerance in terms of a discrete spatial hierarchy level")
and pinned by the suite's `SnapLevel` test: with snapping enabled,
`GetSnapLevel` returns the finest-to-coarsest first level whose half
maximum cell diagonal fits within the robustness radius, or -1 when
snapping is disabled or even the leaf level does not fit.  Angles are
represented in fixed-point units of 10⁻¹⁸ radian (the angle type is an
external collaborator); `kMaxDiag.GetValue l = deriv / 2^l`, so "half the
level-`l` maximum diagonal is at most the tolerance `t`" is the exact
integer comparison `deriv ≤ t * 2^(l+1)`. -/

/-- The leaf cell level of the external cell hierarchy. -/
def kMaxCellLevel : Nat := 30

/-- Modelled from the spec: the derivative constant of the external
`S2::kMaxDiag` length metric, in 10⁻¹⁸ radian units. -/
def kMaxDiagDeriv : ℤ := 2438654594434021264

/-- Half the level-`l` maximum cell diagonal is at most tolerance `t`. -/
def halfDiagLe (l : Nat) (t : ℤ) : Bool :=
  decide (kMaxDiagDeriv ≤ t * 2 ^ (l + 1))

/-- The first level from `l` upward (within `fuel` levels) whose half
maximum diagonal fits in the tolerance. -/
def findSnapLevel (t : ℤ) : Nat → Nat → Int
  | _, 0 => -1
  | l, fuel + 1 => if halfDiagLe l t then (l : Int) else findSnapLevel t (l + 1) fuel

/-- Modelled from the spec and the SnapLevel test:
`S2PolygonBuilderOptions::GetSnapLevel`. -/
def getSnapLevel (snap : Bool) (t : ℤ) : Int :=
  if snap then
    if halfDiagLe kMaxCellLevel t then findSnapLevel t 0 (kMaxCellLevel + 1) else -1
  else -1

/-- Modelled from the spec: `S1Angle::Degrees`, in 10⁻¹⁸ radian fixed-point
units (1° = 0.017453292519943295 rad). -/
def degreesToUnits (dg : ℤ) : ℤ := dg * 17453292519943295

theorem findSnapLevel_spec (t : ℤ) :
    ∀ (fuel l : Nat), (∃ j : Nat, l ≤ j ∧ j < l + fuel ∧ halfDiagLe j t = true) →
      ∃ m : Nat, findSnapLevel t l fuel = (m : Int) ∧ l ≤ m ∧ m < l + fuel
        ∧ halfDiagLe m t = true ∧ ∀ k : Nat, l ≤ k → k < m → halfDiagLe k t = false := by
  intro fuel
  induction fuel with
  | zero =>
    intro l h
    obtain ⟨j, h1, h2, _⟩ := h
    omega
  | succ fuel ih =>
    intro l hex
    rw [findSnapLevel]
    by_cases h : halfDiagLe l t = true
    · rw [if_pos h]
      exact ⟨l, rfl, le_rfl, by omega, h, fun k hk1 hk2 => absurd (by omega : l < l) (by omega)⟩
    · rw [if_neg h]
      obtain ⟨j, h1, h2, h3⟩ := hex
      have hex' : ∃ j : Nat, l + 1 ≤ j ∧ j < (l + 1) + fuel ∧ halfDiagLe j t = true := by
        refine ⟨j, ?_, by omega, h3⟩
        rcases Nat.eq_or_lt_of_le h1 with rfl | hlt
        · exact absurd h3 h
        · omega
      obtain ⟨m, hm1, hm2, hm3, hm4, hm5⟩ := ih (l + 1) hex'
      refine ⟨m, hm1, by omega, by omega, hm4, ?_⟩
      intro k hk1 hk2
      rcases Nat.eq_or_lt_of_le hk1 with rfl | hlt
      · exact Bool.not_eq_true _ ▸ h
      · exact hm5 k (by omega) hk2

/-- C10: `GetSnapLevel` returns -1 whenever snapping is disabled or the
robustness radius is smaller than half the maximum leaf-cell diagonal;
otherwise it returns a cell level, at most the leaf level, whose half
maximum diagonal is at most the robustness radius while the next coarser
level's half maximum diagonal exceeds it — and in particular level 0 for a
robustness radius of 180 degrees. -/
theorem snap_level_contract :
    (∀ t : ℤ, getSnapLevel false t = -1)
    ∧ (∀ t : ℤ, halfDiagLe kMaxCellLevel t = false → getSnapLevel true t = -1)
    ∧ (∀ t : ℤ, halfDiagLe kMaxCellLevel t = true →
        ∃ l : Nat, getSnapLevel true t = (l : Int) ∧ l ≤ kMaxCellLevel
          ∧ halfDiagLe l t = true ∧ (0 < l → halfDiagLe (l - 1) t = false))
    ∧ getSnapLevel true (degreesToUnits 180) = 0 := by
  refine ⟨?_, ?_, ?_, ?_⟩
  · intro t
    rfl
  · intro t ht
    rw [getSnapLevel, if_pos rfl, if_neg (by simp [ht])]
  · intro t ht
    rw [getSnapLevel, if_pos rfl, if_pos ht]
    have hex : ∃ j : Nat, 0 ≤ j ∧ j < 0 + (kMaxCellLevel + 1) ∧ halfDiagLe j t = true :=
      ⟨kMaxCellLevel, by omega, by omega, ht⟩
    obtain ⟨m, hm1, hm2, hm3, hm4, hm5⟩ := findSnapLevel_spec t (kMaxCellLevel + 1) 0 hex
    refine ⟨m, hm1, by omega, hm4, ?_⟩
    intro hpos
    exact hm5 (m - 1) (by omega) (by omega)
  · decide

/-- C10 witness: the contract applied at concrete tolerances — 180 degrees
with snapping off, a one-unit tolerance (below the leaf half-diagonal), and
180 degrees with snapping on. -/
theorem snap_level_contract_witness :
    getSnapLevel false (degreesToUnits 180) = -1
    ∧ (halfDiagLe kMaxCellLevel 1 = false ∧ getSnapLevel true 1 = -1)
    ∧ (halfDiagLe kMaxCellLevel (degreesToUnits 180) = true
        ∧ ∃ l : Nat, getSnapLevel true (degreesToUnits 180) = (l : Int)
          ∧ l ≤ kMaxCellLevel ∧ halfDiagLe l (degreesToUnits 180) = true
          ∧ (0 < l → halfDiagLe (l - 1) (degreesToUnits 180) = false)) :=
  ⟨snap_level_contract.1 _,
   ⟨by decide, snap_level_contract.2.1 1 (by decide)⟩,
   ⟨by decide, snap_level_contract.2.2.1 _ (by decide)⟩⟩

end S2Builder
